import Mathlib

/-
Verification of the durable file queue (component/prometheus/remote/linear/filequeue.go)
and the dbstore helpers (component/prometheus/remote/simple/dbstore.go) of the agent
repository.

Modelling conventions:
* Go strings and byte slices are modelled as lists of naturals (`ByteStr`); Go strings
  are byte slices, so this is faithful.
* The file system is a flat association list from full path to content.  The queue only
  ever creates files directly under its directory, which `os.MkdirAll` guarantees to
  exist, so directories are not modelled separately; a rename whose source path does not
  exist fails, as it does on a real file system.
* The queue directory is fixed to the name "q".  The directory name is configuration;
  none of the verified properties depend on its spelling.
* Go `int` values (indices) are modelled as unbounded `Int`; overflow of a 64-bit index
  is unreachable for any realistic file count and is not modelled.
* `os.WriteFile` is modelled as always succeeding; the verified claims only concern
  read-side and rename errors.
* `sort.Ints` is modelled by insertion sort: every correct sort of a list of integers
  produces the same output list, so the choice of algorithm is immaterial.
* `filepath.Glob` returns the matching paths; it sorts them lexically, but the code
  immediately re-sorts the parsed numeric ids, so the order of the match list is
  immaterial and the file-system order is used.  With the fixed well-formed pattern
  "q/*.committed" Glob cannot return ErrBadPattern, so its error branch is dead.
-/

set_option maxRecDepth 10000

namespace Agent

/-- Go strings and byte slices as lists of byte values. -/
abbrev ByteStr := List Nat

/-- Byte representation of a Lean string literal (ASCII contents only). -/
def str (s : String) : ByteStr := s.data.map Char.toNat

/-- The byte value of the path separator. -/
def slashB : Nat := 47

/-- The queue directory, fixed to "q". -/
def qdir : ByteStr := str "q"

/-- The ".committed" suffix as bytes. -/
def sufC : ByteStr := str ".committed"

/-- The ".uncommitted" suffix as bytes. -/
def sufU : ByteStr := str ".uncommitted"

/-- Little-endian decimal digits of n (empty for 0); fuel-based so it reduces. -/
def digitsAux : Nat → Nat → List Nat
  | 0, _ => []
  | f + 1, n => if n = 0 then [] else n % 10 :: digitsAux f (n / 10)

/-- Big-endian decimal digit values of n. -/
def natDigits (n : Nat) : List Nat :=
  if n = 0 then [0] else (digitsAux n n).reverse

/-- Decimal representation of a natural number as ASCII bytes. -/
def natChars (n : Nat) : ByteStr := (natDigits n).map (· + 48)

/-- fmt.Sprintf "%d" on a Go int. -/
def intChars (i : Int) : ByteStr :=
  if i < 0 then 45 :: natChars (-i).toNat else natChars i.toNat

/-- Is b the byte of an ASCII decimal digit? -/
def isDigitB (b : Nat) : Bool := decide (48 ≤ b) && decide (b ≤ 57)

/-- Numeric value of a big-endian ASCII digit string. -/
def digitsVal (l : ByteStr) : Nat := l.foldl (fun a b => a * 10 + (b - 48)) 0

/-- strconv.Atoi: an optional sign followed by one or more decimal digits; anything
else is an error (modelled as `none`).  Overflow of 64-bit int is not modelled. -/
def atoi (s : ByteStr) : Option Int :=
  if s ≠ [] ∧ s.all isDigitB then some (digitsVal s)
  else
    match s with
    | 43 :: rest =>
      if rest ≠ [] ∧ rest.all isDigitB then some (digitsVal rest) else none
    | 45 :: rest =>
      if rest ≠ [] ∧ rest.all isDigitB then some (-(digitsVal rest : Int)) else none
    | _ => none

/-- Is the first list an initial segment of the second? -/
def isPref : ByteStr → ByteStr → Bool
  | [], _ => true
  | _ :: _, [] => false
  | a :: as, b :: bs => a == b && isPref as bs

/-- strings.HasSuffix, also the meaning of matching the Glob pattern star-dot-suffix
on a name with no separator. -/
def hasSuf (s t : ByteStr) : Bool :=
  if t.length ≤ s.length then s.drop (s.length - t.length) == t else false

/-- strings.ReplaceAll with a nonempty pattern: replace every non-overlapping
occurrence, scanning left to right.  Fuel is the length of the scanned string. -/
def raAux (pat rep : ByteStr) : Nat → ByteStr → ByteStr
  | 0, s => s
  | _ + 1, [] => []
  | f + 1, c :: rest =>
    if isPref pat (c :: rest) then rep ++ raAux pat rep f (List.drop (pat.length - 1) rest)
    else c :: raAux pat rep f rest

/-- strings.ReplaceAll. -/
def replaceAll (s pat rep : ByteStr) : ByteStr := raAux pat rep s.length s

/-- strings.Replace with count 1: replace the first occurrence only. -/
def roAux (pat rep : ByteStr) : Nat → ByteStr → ByteStr
  | 0, s => s
  | _ + 1, [] => []
  | f + 1, c :: rest =>
    if isPref pat (c :: rest) then rep ++ List.drop (pat.length - 1) rest
    else c :: roAux pat rep f rest

/-- strings.Replace with count 1. -/
def replaceOnce (s pat rep : ByteStr) : ByteStr := roAux pat rep s.length s

/-- filepath.Base on a nonempty cleaned path: the part after the last separator. -/
def baseName (p : ByteStr) : ByteStr :=
  (p.reverse.takeWhile (fun b => b != slashB)).reverse

/-- filepath.Join of cleaned nonempty relative path elements. -/
def joinP (a b : ByteStr) : ByteStr := a ++ slashB :: b

/-- binary.PutUvarint: little-endian base-128 with continuation bit. -/
def uvarintAux : Nat → Nat → List Nat
  | 0, n => [n % 128]
  | f + 1, n => if n < 128 then [n] else (n % 128 + 128) :: uvarintAux f (n / 128)

/-- binary.PutUvarint. -/
def putUvar (n : Nat) : List Nat := uvarintAux n n

/-- binary.Uvarint: read a little-endian base-128 value. -/
def readUvar : List Nat → Option (Nat × List Nat)
  | [] => none
  | b :: rest =>
    if b < 128 then some (b, rest)
    else
      match readUvar rest with
      | some (n, r) => some (n * 128 + (b - 128), r)
      | none => none

/-- The payload cut into literal chunks of at most 60 bytes, each preceded by its
snappy literal tag byte.  Fuel is the length of the remaining payload. -/
def encLitsAux : Nat → List Nat → List Nat
  | 0, _ => []
  | _ + 1, [] => []
  | f + 1, d :: t =>
    ((((d :: t).take 60).length - 1) * 4) :: ((d :: t).take 60) ++ encLitsAux f ((d :: t).drop 60)

/-- Value of a little-endian byte sequence. -/
def leVal : List Nat → Nat
  | [] => 0
  | b :: t => b + 256 * leVal t

/-- Execute a snappy copy op: append len bytes, each taken off bytes back in the
output produced so far (byte at a time, so overlapping copies behave as specified);
offset 0 or beyond the produced output is corrupt. -/
def copyAux : Nat → Nat → List Nat → Option (List Nat)
  | 0, _, acc => some acc
  | len + 1, off, acc =>
    if off = 0 ∨ acc.length < off then none
    else copyAux len off (acc ++ [acc.getD (acc.length - off) 0])

/-- Execute the snappy op stream: literal tags (with the 1-4 extra length bytes of the
long forms) and the three copy forms.  Fuel bounds the number of ops; every op consumes
at least one input byte, so fuel equal to the input length never runs out first. -/
def decodeOps : Nat → List Nat → List Nat → Option (List Nat)
  | _, [], acc => some acc
  | 0, _ :: _, _ => none
  | f + 1, tag :: rest, acc =>
    if tag % 4 = 0 then
      if tag / 4 < 60 then
        if tag / 4 + 1 ≤ rest.length then
          decodeOps f (rest.drop (tag / 4 + 1)) (acc ++ rest.take (tag / 4 + 1))
        else none
      else
        if tag / 4 - 59 ≤ rest.length then
          if leVal (rest.take (tag / 4 - 59)) + 1 ≤ (rest.drop (tag / 4 - 59)).length then
            decodeOps f ((rest.drop (tag / 4 - 59)).drop (leVal (rest.take (tag / 4 - 59)) + 1))
              (acc ++ (rest.drop (tag / 4 - 59)).take (leVal (rest.take (tag / 4 - 59)) + 1))
          else none
        else none
    else if tag % 4 = 1 then
      if 1 ≤ rest.length then
        match copyAux (tag / 4 % 8 + 4) (tag / 32 * 256 + rest.headD 0) acc with
        | some acc2 => decodeOps f (rest.drop 1) acc2
        | none => none
      else none
    else if tag % 4 = 2 then
      if 2 ≤ rest.length then
        match copyAux (tag / 4 + 1) (leVal (rest.take 2)) acc with
        | some acc2 => decodeOps f (rest.drop 2) acc2
        | none => none
      else none
    else
      if 4 ≤ rest.length then
        match copyAux (tag / 4 + 1) (leVal (rest.take 4)) acc with
        | some acc2 => decodeOps f (rest.drop 4) acc2
        | none => none
      else none

/-- Modelled from the spec: snappy.Encode of the block-compression codec used by
writeFile (the library github.com/golang/snappy is not part of src/).  The encoder
emits the uncompressed length as a uvarint followed by the payload as literal chunks,
which is a valid snappy block encoding. -/
def snappyEncode (data : List Nat) : List Nat :=
  putUvar data.length ++ encLitsAux data.length data

/-- Modelled from the spec: snappy.Decode of the block-compression codec used by
readFile (the library github.com/golang/snappy is not part of src/).  Read the declared
length, execute the op stream, and reject the block if the produced size differs. -/
def snappyDecode (bb : List Nat) : Option (List Nat) :=
  match readUvar bb with
  | none => none
  | some (dLen, rest) =>
    match decodeOps rest.length rest [] with
    | some out => if out.length = dLen then some out else none
    | none => none

/-- A flat file system: an association list from full path to file content. -/
abbrev FS := List (ByteStr × List Nat)

/-- Look a path up in the file system. -/
def fsFind : FS → ByteStr → Option (List Nat)
  | [], _ => none
  | (n, d) :: t, name => if n = name then some d else fsFind t name

/-- os.Remove (the callers of this model ignore its missing-file error). -/
def fsRemove (fs : FS) (name : ByteStr) : FS := fs.filter (fun e => decide (e.1 ≠ name))

/-- os.WriteFile: truncate an existing file or create a new one. -/
def fsWrite (fs : FS) (name : ByteStr) (data : List Nat) : FS :=
  if (fsFind fs name).isSome then
    fs.map (fun e => if e.1 = name then (name, data) else e)
  else fs ++ [(name, data)]

/-- Queue handle errors. -/
inductive QErr where
  | notFound (name : ByteStr)
  | corrupt
deriving Repr, DecidableEq

deriving instance DecidableEq for Except

/-- os.Rename: fails when the source does not exist, overwrites the target. -/
def fsRename (fs : FS) (src dst : ByteStr) : Except QErr FS :=
  match fsFind fs src with
  | none => .error (.notFound src)
  | some d => .ok (fsWrite (fsRemove fs src) dst d)

/-- Does a full path match the Glob pattern "q/\x2a.committed"?  The path must name a
direct entry of directory q (no further separator) whose name ends in ".committed";
the star matches any run of non-separator bytes, including the empty one. -/
def matchC (p : ByteStr) : Bool :=
  match p with
  | 113 :: 47 :: base => base.all (fun b => b != slashB) && hasSuf base sufC
  | _ => false

/-- Does a full path match the Glob pattern "q/\x2a.uncommitted"? -/
def matchU (p : ByteStr) : Bool :=
  match p with
  | 113 :: 47 :: base => base.all (fun b => b != slashB) && hasSuf base sufU
  | _ => false

/-- filepath.Glob "q/\x2a.committed" (Glob sorts its result lexically, but every use
re-sorts the parsed ids, so the file-system order is kept here). -/
def globC (fs : FS) : List ByteStr := (fs.map Prod.fst).filter matchC

/-- filepath.Glob "q/\x2a.uncommitted". -/
def globU (fs : FS) : List ByteStr := (fs.map Prod.fst).filter matchU

/-- The id parsed from a match, as the loops of newQueue and Next compute it:
strconv.Atoi of strings.ReplaceAll(filepath.Base(x), ".committed", ""). -/
def parseId (name : ByteStr) : Option Int := atoi (replaceAll (baseName name) sufC [])

/-- The parsed id with the zero value the code leaves in the ids slot when Atoi
fails and the loop continues. -/
def parseIdD (name : ByteStr) : Int := (parseId name).getD 0

/-- sort.Ints. -/
def sortInts (l : List Int) : List Int := List.insertionSort (· ≤ ·) l

/-- The queue state: its directory content and the in-memory maxindex. -/
structure QState where
  fs : FS
  maxindex : Int
deriving Repr, DecidableEq

/-- clearUncommitted: glob "q/\x2a.uncommitted" and remove every match. -/
def clearUncommitted (fs : FS) : FS := fs.filter (fun e => !(matchU e.1))

/-- newQueue: ensure the directory, discard uncommitted files, then recover maxindex
from the committed files: parse each id (leaving 0 where Atoi fails), sort, and take
the last element, or 0 when there is none. -/
def newQueue (fs : FS) : QState :=
  let fs1 := clearUncommitted fs
  let ids := sortInts ((globC fs1).map parseIdD)
  { fs := fs1, maxindex := ids.getLast?.getD 0 }

/-- queue.writeFile: snappy-encode the payload into a pooled buffer and write it. -/
def writeFileQ (fs : FS) (name : ByteStr) (data : List Nat) : FS :=
  fsWrite fs name (snappyEncode data)

/-- queue.readFile: read the file and snappy-decode it, propagating either error. -/
def readFileQ (fs : FS) (name : ByteStr) : Except QErr (List Nat) :=
  match fsFind fs name with
  | none => .error (.notFound name)
  | some bb =>
    match snappyDecode bb with
    | none => .error .corrupt
    | some d => .ok d

/-- queue.AddCommited: bump maxindex, build "dir/idx.committed", write the compressed
payload, return the new state and the handle (the joined name). -/
def AddCommited (s : QState) (data : List Nat) : QState × ByteStr :=
  ({ fs := writeFileQ s.fs (joinP qdir (intChars (s.maxindex + 1) ++ sufC)) data,
     maxindex := s.maxindex + 1 },
   joinP qdir (intChars (s.maxindex + 1) ++ sufC))

/-- queue.AddUncommited: as AddCommited but with the ".uncommitted" naming. -/
def AddUncommited (s : QState) (data : List Nat) : QState × ByteStr :=
  ({ fs := writeFileQ s.fs (joinP qdir (intChars (s.maxindex + 1) ++ sufU)) data,
     maxindex := s.maxindex + 1 },
   joinP qdir (intChars (s.maxindex + 1) ++ sufU))

/-- queue.Commit, one handle at a time: build the new name by replacing the first
"uncommitted" with "committed", then rename Join(directory, h) to
Join(directory, newname); stop at the first error, keeping renames already done. -/
def commitAux (fs : FS) : List ByteStr → FS × Option QErr
  | [] => (fs, none)
  | h :: t =>
    match fsRename fs (joinP qdir h) (joinP qdir (replaceOnce h (str "uncommitted") (str "committed"))) with
    | .error e => (fs, some e)
    | .ok fs1 => commitAux fs1 t

/-- queue.Commit. -/
def Commit (fs : FS) (handles : List ByteStr) : FS × Option QErr := commitAux fs handles

/-- queue.Next: glob the committed files (the fixed pattern cannot err); if none,
return the quadruple (nil, "", false, false); otherwise parse the ids (zero where Atoi
fails), sort, rebuild the name of the lowest id, read and decode it — any read error
also yields (nil, "", false, false) — and otherwise return the payload, the name,
true, and whether more than one id was listed. -/
def Next (fs : FS) : Option (List Nat) × ByteStr × Bool × Bool :=
  if globC fs = [] then (none, [], false, false)
  else
    match readFileQ fs (joinP qdir (intChars ((sortInts ((globC fs).map parseIdD)).headD 0) ++ sufC)) with
    | .error _ => (none, [], false, false)
    | .ok data =>
      (some data, joinP qdir (intChars ((sortInts ((globC fs).map parseIdD)).headD 0) ++ sufC),
       true, decide (1 < (sortInts ((globC fs).map parseIdD)).length))

/-- queue.Delete: os.Remove the handle, ignoring its error. -/
def Delete (fs : FS) (name : ByteStr) : FS := fsRemove fs name

/-- The bookmark record (its Key field is the resumption key). -/
structure Bookmark where
  Key : Nat
deriving Repr, DecidableEq

/-- Generic association-list lookup used by the store models. -/
def fsLook : List (ByteStr × α) → ByteStr → Option α
  | [], _ => none
  | (n, d) :: t, name => if n = name then some d else fsLook t name

/-- Modelled from the spec: GetValueByString of the pebble-backed bookmark store
(component/prometheus/remote/simple/pebble, not under src/) — Get(key) returns
(value, found, error), and an absent key yields (nil, false, nil). -/
def bookmarkGet (m : List (ByteStr × Bookmark)) (key : ByteStr) :
    Option Bookmark × Bool × Option ByteStr :=
  match fsLook m key with
  | none => (none, false, none)
  | some b => (some b, true, none)

/-- dbstore.GetBookmark: call the bookmark store, ignore the error, and when the
value is nil return the default bookmark with Key 1 and found false. -/
def GetBookmark (m : List (ByteStr × Bookmark)) (key : ByteStr) : Bookmark × Bool :=
  match bookmarkGet m key with
  | (none, _, _) => ({ Key := 1 }, false)
  | (some b, found, _) => (b, found)

/-- dbstore.GetSignal given the triple the sample store returns from GetValueByKey
(the pebble store is not under src/, so its result is abstract here): a read error is
logged and becomes (nil, false); otherwise value and found pass through unchanged. -/
def GetSignal (val : Option α) (found : Bool) (err : Option ByteStr) : Option α × Bool :=
  match err with
  | some _ => (none, false)
  | none => (val, found)

/-- One callback invocation of filepath.Walk: either a visited entry with its
directory flag and size, or a step at which the walk reports an error. -/
inductive WalkStep where
  | ok (dirFlag : Bool) (size : Int)
  | fail
deriving Repr, DecidableEq

/-- The walk loop of DirSize: accumulate the size of every non-directory entry; when
a step reports an error the callback returns it, filepath.Walk stops, and the size
accumulated so far is what DirSize returns (the walk error itself is discarded). -/
def dirSizeAux : List WalkStep → Int → Int
  | [], acc => acc
  | .ok d s :: rest, acc => dirSizeAux rest (if d then acc else acc + s)
  | .fail :: _, acc => acc

/-- DirSize over the sequence of walk callback invocations. -/
def DirSize (steps : List WalkStep) : Int := dirSizeAux steps 0

/-- dbstore.getFileSize: DirSize of the store directory. -/
def getFileSize (steps : List WalkStep) : Int := DirSize steps

/-- The full path of the committed file with (nonnegative) index n, as the queue
formats it. -/
def committedName (n : Nat) : ByteStr := joinP qdir (natChars n ++ sufC)

/-- Value of a big-endian digit-value list continued from an accumulator. -/
def bval (l : List Nat) (a : Nat) : Nat := l.foldl (fun x d => x * 10 + d) a

/-- The size contribution of one successful walk step: non-directory entries count
their size, directories count zero. -/
def stepSize : WalkStep → Int
  | .ok d s => if d then 0 else s
  | .fail => 0

/-- Is a walk step a successful visit? -/
def notFail : WalkStep → Bool
  | .ok _ _ => true
  | .fail => false

/-- The sum of the sizes of the non-directory entries visited strictly before the
first erroring walk step (a reference function for the corrected DirSize claim). -/
def sizeBeforeFail (steps : List WalkStep) : Int :=
  ((steps.takeWhile notFail).map stepSize).sum

theorem bval_append (l : List Nat) (d a : Nat) : bval (l ++ [d]) a = bval l a * 10 + d := by
  simp [bval, List.foldl_append]

theorem digitsAux_val (f : Nat) : ∀ n a, n ≤ f →
    bval (digitsAux f n).reverse a = a * 10 ^ (digitsAux f n).length + n := by
  induction f with
  | zero =>
    intro n a hn
    interval_cases n
    simp [digitsAux, bval]
  | succ f ih =>
    intro n a hn
    by_cases h0 : n = 0
    · subst h0; simp [digitsAux, bval]
    · have hrec := ih (n / 10) a (by omega)
      have hd : digitsAux (f + 1) n = n % 10 :: digitsAux f (n / 10) := by
        simp [digitsAux, h0]
      rw [hd]
      simp only [List.reverse_cons, List.length_cons]
      rw [bval_append, hrec]
      have : n / 10 * 10 + n % 10 = n := by omega
      ring_nf
      omega

theorem digitsAux_lt_ten (f : Nat) : ∀ n d, d ∈ digitsAux f n → d < 10 := by
  induction f with
  | zero => intro n d hd; simp [digitsAux] at hd
  | succ f ih =>
    intro n d hd
    by_cases h0 : n = 0
    · subst h0; simp [digitsAux] at hd
    · simp [digitsAux, h0] at hd
      rcases hd with h | h
      · omega
      · exact ih _ _ h

theorem natDigits_lt_ten (n d : Nat) (hd : d ∈ natDigits n) : d < 10 := by
  by_cases h0 : n = 0
  · subst h0; simp [natDigits] at hd; omega
  · simp [natDigits, h0] at hd
    exact digitsAux_lt_ten n n d hd

theorem natDigits_ne_nil (n : Nat) : natDigits n ≠ [] := by
  by_cases h0 : n = 0
  · subst h0; simp [natDigits]
  · have h1 : 1 ≤ n := by omega
    simp [natDigits, h0]
    rcases n with _ | m
    · omega
    · simp [digitsAux]

theorem natDigits_val (n : Nat) : bval (natDigits n) 0 = n := by
  by_cases h0 : n = 0
  · subst h0; simp [natDigits, bval]
  · simp [natDigits, h0]
    have := digitsAux_val n n 0 (le_refl n)
    simpa using this

theorem digitsVal_map (l : List Nat) : digitsVal (l.map (· + 48)) = bval l 0 := by
  suffices h : ∀ a, (l.map (· + 48)).foldl (fun x b => x * 10 + (b - 48)) a = bval l a by
    exact h 0
  induction l with
  | nil => intro a; simp [bval]
  | cons d t ih => intro a; simp [bval] at ih ⊢; rw [ih]

theorem natChars_all_digit (n : Nat) : (natChars n).all isDigitB = true := by
  simp [natChars, List.all_eq_true]
  intro d hd
  have := natDigits_lt_ten n d hd
  simp [isDigitB]
  omega

theorem natChars_ne_nil (n : Nat) : natChars n ≠ [] := by
  simp [natChars]
  exact natDigits_ne_nil n

theorem natChars_mem_range (n b : Nat) (hb : b ∈ natChars n) : 48 ≤ b ∧ b ≤ 57 := by
  simp [natChars] at hb
  obtain ⟨d, hd, rfl⟩ := hb
  have := natDigits_lt_ten n d hd
  omega

theorem atoi_natChars (n : Nat) : atoi (natChars n) = some (n : Int) := by
  have hall := natChars_all_digit n
  have hne := natChars_ne_nil n
  have hval : digitsVal (natChars n) = n := by
    simp [natChars]
    rw [digitsVal_map, natDigits_val]
  simp [atoi, hne, hall, hval]

theorem isPref_self_append (l r : ByteStr) : isPref l (l ++ r) = true := by
  induction l with
  | nil => simp [isPref]
  | cons a t ih => simp [isPref, ih]

theorem raAux_nil (pat rep : ByteStr) (f : Nat) : raAux pat rep f [] = [] := by
  cases f <;> simp [raAux]

theorem sufC_eq : sufC = [46, 99, 111, 109, 109, 105, 116, 116, 101, 100] := by decide

theorem sufU_eq : sufU = [46, 117, 110, 99, 111, 109, 109, 105, 116, 116, 101, 100] := by
  decide

theorem raAux_strip (a : ByteStr) : ∀ f, (∀ c ∈ a, c ≠ 46) → (a ++ sufC).length ≤ f →
    raAux sufC [] f (a ++ sufC) = a := by
  induction a with
  | nil =>
    intro f _ hf
    rw [List.nil_append] at hf ⊢
    rw [sufC_eq] at hf
    rcases f with _ | f
    · simp at hf
    · rw [sufC_eq]
      show raAux sufC [] (f + 1) (46 :: [99, 111, 109, 109, 105, 116, 116, 101, 100]) = []
      rw [raAux]
      have hp : isPref sufC (46 :: [99, 111, 109, 109, 105, 116, 116, 101, 100]) = true := by
        rw [sufC_eq]; decide
      rw [hp]
      simp only [if_true]
      have hd : List.drop (sufC.length - 1) [99, 111, 109, 109, 105, 116, 116, 101, 100]
          = ([] : ByteStr) := by
        rw [sufC_eq]; decide
      rw [hd, raAux_nil]
      rfl
  | cons c t ih =>
    intro f hc hf
    rcases f with _ | f
    · rw [sufC_eq] at hf; simp at hf
    · have hcne : c ≠ 46 := hc c (by simp)
      have hp : isPref sufC (c :: (t ++ sufC)) = false := by
        rw [sufC_eq]
        simp [isPref]
        intro h
        exact absurd h.symm hcne
      have := ih f (fun d hd => hc d (by simp [hd])) (by simp at hf ⊢; omega)
      simp only [List.cons_append, raAux, List.append_eq, hp, Bool.false_eq_true, if_false, this]

theorem replaceAll_strip (a : ByteStr) (ha : ∀ c ∈ a, c ≠ 46) :
    replaceAll (a ++ sufC) sufC [] = a :=
  raAux_strip a (a ++ sufC).length ha (le_refl _)

theorem takeWhile_append_of_all {p : Nat → Bool} {l : ByteStr} (hl : ∀ c ∈ l, p c = true)
    {b : Nat} (hb : p b = false) (r : ByteStr) :
    List.takeWhile p (l ++ b :: r) = l := by
  induction l with
  | nil => simp [List.takeWhile, hb]
  | cons c t ih =>
    have hc : p c = true := hl c (by simp)
    simp only [List.cons_append, List.takeWhile, hc, List.append_eq]
    rw [ih (fun d hd => hl d (by simp [hd]))]

theorem baseName_join (b : ByteStr) (hb : ∀ c ∈ b, c ≠ slashB) :
    baseName (joinP qdir b) = b := by
  have hq : joinP qdir b = 113 :: 47 :: b := by rw [joinP]; rfl
  rw [baseName, hq]
  show (List.takeWhile (fun c => c != slashB) ((113 :: 47 :: b).reverse)).reverse = b
  have hrev : (113 :: 47 :: b).reverse = b.reverse ++ 47 :: [113] := by simp
  rw [hrev]
  rw [takeWhile_append_of_all (p := fun c => c != slashB)
        (fun c hc => by
          have := hb c (by simpa using hc)
          simp [slashB] at this ⊢
          exact this)
        (by simp [slashB]) [113]]
  simp

theorem hasSuf_append (a t : ByteStr) : hasSuf (a ++ t) t = true := by
  rw [hasSuf]
  have h1 : t.length ≤ (a ++ t).length := by simp
  rw [if_pos h1]
  have h2 : (a ++ t).length - t.length = a.length := by simp
  rw [h2, List.drop_left]
  simp

theorem natChars_ne_slash (n : Nat) : ∀ c ∈ natChars n, c ≠ slashB := by
  intro c hc
  have := natChars_mem_range n c hc
  simp [slashB]
  omega

theorem natChars_ne_dot (n : Nat) : ∀ c ∈ natChars n, c ≠ 46 := by
  intro c hc
  have := natChars_mem_range n c hc
  omega

theorem sufC_ne_slash : ∀ c ∈ sufC, c ≠ slashB := by decide

theorem matchC_committedName (n : Nat) : matchC (committedName n) = true := by
  have hq : committedName n = 113 :: 47 :: (natChars n ++ sufC) := by
    rw [committedName, joinP]; rfl
  rw [hq, matchC]
  simp only [Bool.and_eq_true, List.all_eq_true]
  constructor
  · intro b hb
    simp only [List.mem_append] at hb
    have hb47 : b ≠ slashB := by
      rcases hb with h | h
      · exact natChars_ne_slash n b h
      · exact sufC_ne_slash b h
    simp [slashB] at hb47 ⊢
    exact hb47
  · exact hasSuf_append _ _

theorem hasSuf_sufC_sufU (a : ByteStr) : hasSuf (a ++ sufC) sufU = false := by
  have hsU : sufU.length = 12 := by decide
  have hsC : sufC.length = 10 := by decide
  rw [hasSuf]
  by_cases hlen : sufU.length ≤ (a ++ sufC).length
  · rw [if_pos hlen]
    rw [hsU, List.length_append, hsC] at hlen
    by_contra hbeq
    simp only [Bool.not_eq_false, beq_iff_eq] at hbeq
    have hlen2 : 2 ≤ a.length := by omega
    have hdrop : (a ++ sufC).length - sufU.length = a.length - 2 := by
      rw [hsU, List.length_append, hsC]
      omega
    rw [hdrop] at hbeq
    have hsplit : List.drop (a.length - 2) (a ++ sufC)
        = List.drop (a.length - 2) a ++ sufC := by
      rw [List.drop_append_eq_append_drop]
      have : a.length - 2 - a.length = 0 := by omega
      rw [this, List.drop_zero]
    rw [hsplit] at hbeq
    have hlendrop : (List.drop (a.length - 2) a).length = 2 := by
      simp
      omega
    have h2 : List.drop 2 (List.drop (a.length - 2) a ++ sufC)
        = List.drop 2 sufU := by rw [hbeq]
    rw [List.drop_append_eq_append_drop, hlendrop] at h2
    simp only [show (2 : Nat) - 2 = 0 from rfl, List.drop_zero] at h2
    have : List.drop 2 (List.drop (a.length - 2) a) = [] := by
      apply List.drop_eq_nil_of_le
      omega
    rw [this, List.nil_append] at h2
    rw [sufC_eq, sufU_eq] at h2
    simp at h2
  · rw [if_neg hlen]

theorem matchU_committedName (n : Nat) : matchU (committedName n) = false := by
  have hq : committedName n = 113 :: 47 :: (natChars n ++ sufC) := by
    rw [committedName, joinP]; rfl
  rw [hq, matchU]
  rw [hasSuf_sufC_sufU]
  simp

theorem parseId_committedName (n : Nat) : parseId (committedName n) = some (n : Int) := by
  rw [parseId, committedName]
  rw [baseName_join _ (fun c hc => by
    simp only [List.mem_append] at hc
    rcases hc with h | h
    · exact natChars_ne_slash n c h
    · exact sufC_ne_slash c h)]
  rw [replaceAll_strip _ (natChars_ne_dot n)]
  exact atoi_natChars n

theorem parseIdD_committedName (n : Nat) : parseIdD (committedName n) = (n : Int) := by
  rw [parseIdD, parseId_committedName]
  rfl

theorem intChars_ofNat (n : Nat) : intChars (n : Int) = natChars n := by
  rw [intChars]
  rw [if_neg (by omega)]
  simp

theorem committedName_as_int (n : Nat) :
    joinP qdir (intChars (n : Int) ++ sufC) = committedName n := by
  rw [intChars_ofNat, committedName]

theorem sortInts_perm (l : List Int) : List.Perm (sortInts l) l := List.perm_insertionSort _ l

theorem sortInts_sorted (l : List Int) : (sortInts l).Sorted (· ≤ ·) :=
  List.sorted_insertionSort _ l

theorem sortInts_ne_nil {l : List Int} (h : l ≠ []) : sortInts l ≠ [] := by
  intro hs
  have := (sortInts_perm l).length_eq
  rw [hs] at this
  simp at this
  exact h (List.length_eq_zero.mp this.symm)

theorem sortInts_head (l : List Int) (h : l ≠ []) :
    (sortInts l).headD 0 ∈ l ∧ ∀ x ∈ l, (sortInts l).headD 0 ≤ x := by
  rcases hs : sortInts l with _ | ⟨y, t⟩
  · exact absurd hs (sortInts_ne_nil h)
  · have hperm := sortInts_perm l
    rw [hs] at hperm
    have hsorted := sortInts_sorted l
    rw [hs] at hsorted
    have hrel := (List.sorted_cons.mp hsorted).1
    constructor
    · exact hperm.mem_iff.mp (by simp)
    · intro x hx
      have hx2 : x ∈ y :: t := hperm.mem_iff.mpr hx
      simp only [List.headD_cons]
      rcases List.mem_cons.mp hx2 with h2 | h2
      · omega
      · exact hrel x h2

theorem sorted_getLast_ge (l : List Int) (hs : l.Sorted (· ≤ ·)) :
    ∀ x ∈ l, x ≤ l.getLast?.getD 0 := by
  induction l with
  | nil => intro x hx; simp at hx
  | cons y t ih =>
    intro x hx
    have hrel := (List.sorted_cons.mp hs).1
    have ht := (List.sorted_cons.mp hs).2
    rcases ht2 : t with _ | ⟨z, t2⟩
    · rcases List.mem_cons.mp hx with h2 | h2
      · simp [h2]
      · rw [ht2] at h2; simp at h2
    · have hlast : (y :: z :: t2).getLast? = (z :: t2).getLast? := rfl
      rw [hlast, ← ht2]
      rcases List.mem_cons.mp hx with h2 | h2
      · subst h2
        have hz : z ∈ t := by rw [ht2]; simp
        have h3 := hrel z hz
        have h4 := ih ht z hz
        omega
      · exact ih ht x h2

theorem sortInts_last (l : List Int) (h : l ≠ []) :
    (sortInts l).getLast?.getD 0 ∈ l ∧ ∀ x ∈ l, x ≤ (sortInts l).getLast?.getD 0 := by
  have hperm := sortInts_perm l
  constructor
  · have hne := sortInts_ne_nil h
    have hg := List.getLast?_eq_getLast_of_ne_nil hne
    rw [hg]
    simp only [Option.getD_some]
    exact hperm.mem_iff.mp (List.getLast_mem hne)
  · intro x hx
    exact sorted_getLast_ge (sortInts l) (sortInts_sorted l) x (hperm.mem_iff.mpr hx)

theorem fsFind_filter {fs : FS} {name : ByteStr} {d : List Nat} {p : ByteStr × List Nat → Bool}
    (hf : fsFind fs name = some d) (hp : p (name, d) = true) :
    fsFind (fs.filter p) name = some d := by
  induction fs with
  | nil => simp [fsFind] at hf
  | cons e t ih =>
    rw [fsFind] at hf
    by_cases he : e.1 = name
    · rw [if_pos he] at hf
      have hed : e = (name, d) := by
        rcases e with ⟨n, x⟩
        simp only at he
        simp only [Option.some.injEq] at hf
        rw [he, hf]
      subst hed
      rw [List.filter_cons, if_pos hp, fsFind, if_pos rfl]
    · rw [if_neg he] at hf
      rw [List.filter_cons]
      by_cases hpe : p e = true
      · rw [if_pos hpe, fsFind, if_neg he]
        exact ih hf
      · rw [if_neg hpe]
        exact ih hf

theorem fsFind_mem_keys {fs : FS} {name : ByteStr} {d : List Nat}
    (hf : fsFind fs name = some d) : name ∈ fs.map Prod.fst := by
  induction fs with
  | nil => simp [fsFind] at hf
  | cons e t ih =>
    rw [fsFind] at hf
    by_cases he : e.1 = name
    · simp [he]
    · rw [if_neg he] at hf
      simp [ih hf]

theorem readUvar_append (f : Nat) : ∀ n (r : List Nat), n ≤ f →
    readUvar (uvarintAux f n ++ r) = some (n, r) := by
  induction f with
  | zero =>
    intro n r hn
    interval_cases n
    simp [uvarintAux, readUvar]
  | succ f ih =>
    intro n r hn
    by_cases hlt : n < 128
    · simp [uvarintAux, hlt, readUvar]
    · have hdiv : n / 128 ≤ f := by
        have h1 : n / 128 < n := Nat.div_lt_self (by omega) (by omega)
        omega
      have hrec := ih (n / 128) r hdiv
      simp only [uvarintAux, hlt, if_false]
      rw [List.cons_append, readUvar]
      rw [if_neg (by omega)]
      rw [hrec]
      simp
      omega

theorem encLitsAux_length (f : Nat) : ∀ (data : List Nat), data.length ≤ f →
    data.length ≤ (encLitsAux f data).length := by
  induction f with
  | zero =>
    intro data h
    have hdata : data = [] := List.length_eq_zero.mp (by omega)
    subst hdata
    simp
  | succ f ih =>
    intro data h
    rcases data with _ | ⟨d, t⟩
    · simp
    · simp only [encLitsAux, List.length_cons, List.length_append]
      have hdrop : ((d :: t).drop 60).length ≤ f := by
        simp only [List.length_drop, List.length_cons] at h ⊢
        omega
      have := ih ((d :: t).drop 60) hdrop
      simp only [List.length_take, List.length_drop, List.length_cons] at this ⊢
      omega

theorem decodeOps_encLits (f : Nat) : ∀ (data acc : List Nat) (g : Nat),
    data.length ≤ f → data.length ≤ g →
    decodeOps g (encLitsAux f data) acc = some (acc ++ data) := by
  induction f with
  | zero =>
    intro data acc g hf _
    have hdata : data = [] := List.length_eq_zero.mp (by omega)
    subst hdata
    cases g <;> simp [encLitsAux, decodeOps]
  | succ f ih =>
    intro data acc g hf hg
    rcases data with _ | ⟨d, t⟩
    · cases g <;> simp [encLitsAux, decodeOps]
    · have hlen1 : 1 ≤ (d :: t).length := by simp
      rcases g with _ | g

      · simp at hg
      · have hc1 : 1 ≤ ((d :: t).take 60).length := by
          rw [List.length_take]
          simp only [List.length_cons]
          omega
        have hc60 : ((d :: t).take 60).length ≤ 60 := by rw [List.length_take]; omega
        rw [encLitsAux, List.cons_append, decodeOps]
        have htag4 : (((d :: t).take 60).length - 1) * 4 % 4 = 0 := Nat.mul_mod_left _ 4
        have htagdiv : (((d :: t).take 60).length - 1) * 4 / 4 = ((d :: t).take 60).length - 1 :=
          Nat.mul_div_cancel _ (by omega)
        have hmlt : ((d :: t).take 60).length - 1 < 60 := by omega
        have hm1 : ((d :: t).take 60).length - 1 + 1 = ((d :: t).take 60).length := by omega
        have hlen2 : ((d :: t).take 60).length
            ≤ ((d :: t).take 60 ++ encLitsAux f ((d :: t).drop 60)).length := by
          simp
        simp only [htag4, htagdiv, hmlt, if_true, hm1, hlen2, if_pos]
        rw [List.take_left, List.drop_left]
        have hrest : ((d :: t).drop 60).length ≤ f := by
          simp only [List.length_drop, List.length_cons] at hf ⊢
          omega
        have hrg : ((d :: t).drop 60).length ≤ g := by
          simp only [List.length_drop, List.length_cons] at hg ⊢
          omega
        rw [ih ((d :: t).drop 60) (acc ++ (d :: t).take 60) g hrest hrg]
        rw [List.append_assoc, List.take_append_drop]

theorem snappy_roundtrip (p : List Nat) : snappyDecode (snappyEncode p) = some p := by
  rw [snappyEncode, snappyDecode, putUvar]
  rw [readUvar_append p.length p.length (encLitsAux p.length p) (le_refl _)]
  show (match decodeOps (encLitsAux p.length p).length (encLitsAux p.length p) [] with
        | some out => if out.length = p.length then some out else none
        | none => none) = some p
  rw [decodeOps_encLits p.length p [] (encLitsAux p.length p).length (le_refl _)
        (encLitsAux_length p.length p (le_refl _))]
  simp

/-- C1: the claimed two-phase commit scenario fails on the code.  AddUncommited
returns the handle "q/1.uncommitted" (directory already joined in), but Commit joins
the directory a second time and tries to rename the nonexistent "q/q/1.uncommitted":
it returns an error, the entry stays uncommitted, and Next returns found=false instead
of the payload "A". -/
theorem c1_commit_double_join_codebug :
    (AddUncommited (newQueue []) (str "A")).2 = str "q/1.uncommitted" ∧
    (Commit (AddUncommited (newQueue []) (str "A")).1.fs [str "q/1.uncommitted"]).2 =
      some (QErr.notFound (str "q/q/1.uncommitted")) ∧
    Next (Commit (AddUncommited (newQueue []) (str "A")).1.fs [str "q/1.uncommitted"]).1 =
      (none, [], false, false) := by
  refine ⟨by decide, by decide, by decide⟩

/-- C2: crash recovery discards uncommitted entries — after newQueue, no file of the
queue directory matches the Uncommitted pattern, for every starting directory state;
and in the concrete add-uncommitted-then-reopen scenario, Next returns found=false. -/
theorem c2_reopen_discards_uncommitted :
    (∀ (fs : FS) (e : ByteStr × List Nat), e ∈ (newQueue fs).fs → matchU e.1 = false) ∧
    Next (newQueue (AddUncommited (newQueue []) (str "A")).1.fs).fs =
      (none, [], false, false) := by
  constructor
  · intro fs e he
    have hmem := List.mem_filter.mp he
    have := hmem.2
    simp only [Bool.not_eq_true'] at this
    exact this
  · decide

/-- C2 witness: the universal part of the theorem applied to a concrete directory
holding one committed file. -/
theorem c2_reopen_discards_uncommitted_witness :
    matchU (str "q/1.committed") = false :=
  c2_reopen_discards_uncommitted.1 [(str "q/1.committed", [7])] (str "q/1.committed", [7])
    (by decide)

/-- C6 (corrected): a read or decompression error inside Next is not surfaced — Next
converts every readFile error into the non-error result (nil, "", false, false).  The
single readFile call is the only read attempt, so no retry happens. -/
theorem c6_read_error_swallowed (fs : FS) (e : QErr)
    (hne : globC fs ≠ [])
    (hr : readFileQ fs
        (joinP qdir (intChars ((sortInts ((globC fs).map parseIdD)).headD 0) ++ sufC)) =
      .error e) :
    Next fs = (none, [], false, false) := by
  simp only [Next]
  rw [if_neg hne, hr]

/-- C6 witness: the theorem applied to a directory whose only committed file holds a
corrupt snappy block. -/
theorem c6_read_error_swallowed_witness :
    Next [(str "q/1.committed", [1])] = (none, [], false, false) :=
  c6_read_error_swallowed [(str "q/1.committed", [1])] QErr.corrupt (by decide) (by decide)

/-- C6 counterexample to the claim as stated: reading the committed file fails
(corrupt block), yet Next returns the non-error quadruple (nil, "", false, false) —
the error is converted into a non-error result, not surfaced. -/
theorem c6_error_not_surfaced_counterexample :
    readFileQ [(str "q/1.committed", [1])] (str "q/1.committed") = .error QErr.corrupt ∧
    Next [(str "q/1.committed", [1])] = (none, [], false, false) := by
  refine ⟨by decide, by decide⟩

/-- C7: GetBookmark on a key the bookmark store holds no value for returns the default
bookmark with Key = 1 and found = false (and its return type carries no error). -/
theorem c7_bookmark_default (m : List (ByteStr × Bookmark)) (key : ByteStr)
    (h : fsLook m key = none) :
    GetBookmark m key = ({ Key := 1 }, false) := by
  simp only [GetBookmark, bookmarkGet, h]

/-- C7 witness: the theorem applied to the empty bookmark store. -/
theorem c7_bookmark_default_witness :
    GetBookmark [] (str "k") = ({ Key := 1 }, false) :=
  c7_bookmark_default [] (str "k") rfl

/-- C8: GetSignal turns every sample-store read error into (nil, false) — the error is
never propagated — and passes value and found through unchanged when the read
succeeds. -/
theorem c8_getsignal_lossy :
    ∀ (α : Type) (val : Option α) (found : Bool) (e : ByteStr),
      GetSignal val found (some e) = (none, false) ∧
      GetSignal val found none = (val, found) := by
  intro α val found e
  exact ⟨rfl, rfl⟩

/-- C9 counterexample to the claim as stated: a walk that visits one 5-byte file and
then reports an error makes DirSize return 5, not zero. -/
theorem c9_dirsize_counterexample :
    DirSize [WalkStep.ok false 5, WalkStep.fail] = 5 ∧ (5 : Int) ≠ 0 := by
  refine ⟨by decide, by decide⟩

/-- C9 (corrected): on an erroring traversal DirSize returns the sizes accumulated
before the first error — zero only when the error comes before any file, in general
the partial sum. -/
theorem c9_dirsize_partial_sum :
    (∀ steps : List WalkStep, DirSize steps = sizeBeforeFail steps) ∧
    (∀ steps : List WalkStep, DirSize (WalkStep.fail :: steps) = 0) := by
  have haux : ∀ (steps : List WalkStep) (acc : Int),
      dirSizeAux steps acc = acc + sizeBeforeFail steps := by
    intro steps
    induction steps with
    | nil => intro acc; simp [dirSizeAux, sizeBeforeFail]
    | cons s rest ih =>
      intro acc
      cases s with
      | ok d z =>
        rw [dirSizeAux, ih]
        have : sizeBeforeFail (WalkStep.ok d z :: rest)
            = stepSize (WalkStep.ok d z) + sizeBeforeFail rest := by
          simp [sizeBeforeFail, List.takeWhile, notFail]
        rw [this, stepSize]
        cases d <;> simp <;> ring
      | fail =>
        rw [dirSizeAux]
        have : sizeBeforeFail (WalkStep.fail :: rest) = 0 := by
          simp [sizeBeforeFail, List.takeWhile, notFail]
        rw [this]
        ring
  constructor
  · intro steps
    rw [DirSize, haux]
    ring
  · intro steps
    rw [DirSize, dirSizeAux]

/-- C5: round-trip — any payload added with AddCommited to an empty queue directory
comes back byte-identical from Next (the compressed file decodes to the original), and
readFileQ on the written handle also returns the original bytes. -/
theorem c5_compression_roundtrip (p : List Nat) :
    Next (AddCommited (newQueue []) p).1.fs = (some p, str "q/1.committed", true, false) ∧
    readFileQ (AddCommited (newQueue []) p).1.fs (str "q/1.committed") = .ok p := by
  have h1 : (AddCommited (newQueue []) p).1.fs = [(str "q/1.committed", snappyEncode p)] :=
    rfl
  have hfindeq : fsFind [(str "q/1.committed", snappyEncode p)] (str "q/1.committed")
      = some (snappyEncode p) := by
    rw [fsFind, if_pos rfl]
  have hread : readFileQ [(str "q/1.committed", snappyEncode p)] (str "q/1.committed")
      = .ok p := by
    rw [readFileQ, hfindeq]
    show (match snappyDecode (snappyEncode p) with
          | none => Except.error QErr.corrupt
          | some d => Except.ok d) = Except.ok p
    rw [snappy_roundtrip]
  constructor
  · rw [h1]
    simp only [Next]
    have hg : globC [(str "q/1.committed", snappyEncode p)] = [str "q/1.committed"] := rfl
    rw [hg]
    rw [if_neg (by decide)]
    rw [show joinP qdir
          (intChars ((sortInts (List.map parseIdD [str "q/1.committed"])).headD 0) ++ sufC)
        = str "q/1.committed" from by decide]
    rw [hread]
    rw [show decide (1 < (sortInts (List.map parseIdD [str "q/1.committed"])).length) = false
        from by decide]
  · rw [h1, hread]

/-- C10: when some committed file has a base name Atoi rejects, the loop leaves id 0
in its slot, so 0 appears in the id list; if no file "q/0.committed" exists (and no
file parses to a negative id), the rebuilt lowest name cannot be read and Next returns
found=false although committed files are present. -/
theorem c10_unparsable_name_zero_id (fs : FS)
    (hne : globC fs ≠ [])
    (hbad : ∃ name ∈ globC fs, parseId name = none)
    (hpos : ∀ name ∈ globC fs, ∀ i : Int, parseId name = some i → 0 ≤ i)
    (habs : fsFind fs (str "q/0.committed") = none) :
    (0 : Int) ∈ (globC fs).map parseIdD ∧ Next fs = (none, [], false, false) := by
  obtain ⟨bname, hbmem, hbnone⟩ := hbad
  have hb0 : parseIdD bname = 0 := by rw [parseIdD, hbnone]; rfl
  have h0mem : (0 : Int) ∈ (globC fs).map parseIdD :=
    List.mem_map.mpr ⟨bname, hbmem, hb0⟩
  refine ⟨h0mem, ?_⟩
  have hmapne : (globC fs).map parseIdD ≠ [] := by
    intro h
    rw [h] at h0mem
    simp at h0mem
  obtain ⟨hheadmem, hheadmin⟩ := sortInts_head ((globC fs).map parseIdD) hmapne
  have hle : (sortInts ((globC fs).map parseIdD)).headD 0 ≤ 0 := hheadmin 0 h0mem
  have hge : 0 ≤ (sortInts ((globC fs).map parseIdD)).headD 0 := by
    obtain ⟨name, hnmem, hneq⟩ := List.mem_map.mp hheadmem
    rw [← hneq, parseIdD]
    rcases hp : parseId name with _ | i
    · simp
    · simpa using hpos name hnmem i hp
  have hh0 : (sortInts ((globC fs).map parseIdD)).headD 0 = 0 := by omega
  simp only [Next]
  rw [if_neg hne]
  rw [show joinP qdir (intChars ((sortInts ((globC fs).map parseIdD)).headD 0) ++ sufC)
      = str "q/0.committed" from by rw [hh0]; decide]
  rw [show readFileQ fs (str "q/0.committed") = .error (.notFound (str "q/0.committed"))
      from by rw [readFileQ, habs]]

/-- C10 witness: a directory holding the single committed file "q/x.committed". -/
theorem c10_unparsable_name_zero_id_witness :
    (0 : Int) ∈ (globC [(str "q/x.committed", [7])]).map parseIdD ∧
    Next [(str "q/x.committed", [7])] = (none, [], false, false) :=
  c10_unparsable_name_zero_id [(str "q/x.committed", [7])] (by decide)
    ⟨str "q/x.committed", by decide, by decide⟩
    (by
      intro name hm i hp
      have hn : name = str "q/x.committed" := by
        have : globC [(str "q/x.committed", [7])] = [str "q/x.committed"] := by decide
        rw [this] at hm
        simpa using hm
      rw [hn] at hp
      rw [show parseId (str "q/x.committed") = none from by decide] at hp
      cases hp)
    (by decide)

/-- C4 counterexample to the claim as stated: one run writes an entry up to index
K = 1 with AddUncommited, the queue is reopened on the same directory (discarding the
uncommitted file), and the next AddCommited allocates index 1 again — not strictly
greater than K. -/
theorem c4_index_reuse_counterexample :
    (AddUncommited (newQueue []) (str "A")).1.maxindex = 1 ∧
    (AddCommited (newQueue (AddUncommited (newQueue []) (str "A")).1.fs) (str "B")).1.maxindex
      = 1 ∧
    ¬ ((AddUncommited (newQueue []) (str "A")).1.maxindex <
        (AddCommited (newQueue (AddUncommited (newQueue []) (str "A")).1.fs)
          (str "B")).1.maxindex) := by
  refine ⟨by decide, by decide, by decide⟩

/-- C4 (corrected): index monotonicity across restarts holds for indices that are
still present as Committed files at reopen — if "q/K.committed" exists, the index the
next AddCommited/AddUncommited allocates after newQueue is strictly greater than K —
and within one process successive allocations are strictly increasing. -/
theorem c4_index_monotone_amended :
    (∀ (fs : FS) (K : Nat) (d p : List Nat),
        fsFind fs (committedName K) = some d →
        (K : Int) < (AddCommited (newQueue fs) p).1.maxindex ∧
        (K : Int) < (AddUncommited (newQueue fs) p).1.maxindex) ∧
    (∀ (s : QState) (p q : List Nat),
        s.maxindex < (AddCommited s p).1.maxindex ∧
        (AddCommited s p).1.maxindex < (AddCommited (AddCommited s p).1 q).1.maxindex ∧
        s.maxindex < (AddUncommited s p).1.maxindex ∧
        (AddUncommited s p).1.maxindex < (AddUncommited (AddUncommited s p).1 q).1.maxindex) := by
  constructor
  · intro fs K d p hK
    have hkeep : fsFind (clearUncommitted fs) (committedName K) = some d := by
      rw [clearUncommitted]
      exact fsFind_filter hK (by rw [matchU_committedName]; rfl)
    have hmemglob : committedName K ∈ globC (clearUncommitted fs) :=
      List.mem_filter.mpr ⟨fsFind_mem_keys hkeep, matchC_committedName K⟩
    have hmemids : (K : Int) ∈ (globC (clearUncommitted fs)).map parseIdD :=
      List.mem_map.mpr ⟨committedName K, hmemglob, parseIdD_committedName K⟩
    have hidsne : (globC (clearUncommitted fs)).map parseIdD ≠ [] :=
      List.ne_nil_of_mem hmemids
    have hmax := (sortInts_last _ hidsne).2 (K : Int) hmemids
    have hnewq : (newQueue fs).maxindex
        = (sortInts ((globC (clearUncommitted fs)).map parseIdD)).getLast?.getD 0 := rfl
    have hadd1 : (AddCommited (newQueue fs) p).1.maxindex = (newQueue fs).maxindex + 1 := rfl
    have hadd2 : (AddUncommited (newQueue fs) p).1.maxindex = (newQueue fs).maxindex + 1 :=
      rfl
    rw [hadd1, hadd2, hnewq]
    omega
  · intro s p q
    refine ⟨?_, ?_, ?_, ?_⟩ <;>
      (simp only [AddCommited, AddUncommited]; omega)

/-- C4 amended witness: the amended theorem applied to a directory holding
"q/5.committed". -/
theorem c4_index_monotone_amended_witness :
    (5 : Int) < (AddCommited (newQueue [(committedName 5, [7])]) (str "B")).1.maxindex ∧
    (5 : Int) < (AddUncommited (newQueue [(committedName 5, [7])]) (str "B")).1.maxindex :=
  c4_index_monotone_amended.1 [(committedName 5, [7])] 5 [7] (str "B") (by decide)

/-- C3: FIFO delivery — in a directory whose committed files all have numeric names
and hold written (snappy-encoded) payloads, Next returns the payload of the entry with
the lowest index, found is true, and hasMore is true exactly when more than one
committed file exists. -/
theorem c3_fifo_lowest_index (fs : FS)
    (hne : globC fs ≠ [])
    (hwf : ∀ name ∈ globC fs, ∃ (n : Nat) (p : List Nat),
        name = committedName n ∧ fsFind fs name = some (snappyEncode p)) :
    ∃ (n : Nat) (p : List Nat),
      committedName n ∈ globC fs ∧
      fsFind fs (committedName n) = some (snappyEncode p) ∧
      (∀ name ∈ globC fs, ∀ m : Nat, name = committedName m → n ≤ m) ∧
      Next fs = (some p, committedName n, true, decide (1 < (globC fs).length)) := by
  have hmapne : (globC fs).map parseIdD ≠ [] := by
    intro h
    exact hne (List.map_eq_nil_iff.mp h)
  obtain ⟨hheadmem, hheadmin⟩ := sortInts_head ((globC fs).map parseIdD) hmapne
  obtain ⟨name0, hname0mem, hname0eq⟩ := List.mem_map.mp hheadmem
  obtain ⟨n0, p0, hn0, hfind0⟩ := hwf name0 hname0mem
  have hh0n0 : (sortInts ((globC fs).map parseIdD)).headD 0 = (n0 : Int) := by
    rw [← hname0eq, hn0, parseIdD_committedName]
  refine ⟨n0, p0, ?_, ?_, ?_, ?_⟩
  · rw [← hn0]; exact hname0mem
  · rw [← hn0]; exact hfind0
  · intro name hmemname m hm
    have hpm : parseIdD name = (m : Int) := by rw [hm, parseIdD_committedName]
    have h1 : (n0 : Int) ≤ (m : Int) := by
      rw [← hh0n0, ← hpm]
      exact hheadmin _ (List.mem_map_of_mem _ hmemname)
    exact_mod_cast h1
  · simp only [Next]
    rw [if_neg hne]
    rw [show joinP qdir (intChars ((sortInts ((globC fs).map parseIdD)).headD 0) ++ sufC)
        = committedName n0 from by rw [hh0n0, committedName_as_int]]
    rw [show readFileQ fs (committedName n0) = .ok p0 from by
      rw [readFileQ, ← hn0, hfind0]
      show (match snappyDecode (snappyEncode p0) with
            | none => Except.error QErr.corrupt
            | some d => Except.ok d) = Except.ok p0
      rw [snappy_roundtrip]]
    rw [show (sortInts ((globC fs).map parseIdD)).length = (globC fs).length from by
      rw [(sortInts_perm _).length_eq, List.length_map]]

/-- C3 witness: a directory holding the committed entries 2 and 1; the theorem yields
the lowest-index payload. -/
theorem c3_fifo_lowest_index_witness :
    ∃ (n : Nat) (p : List Nat),
      committedName n ∈ globC [(committedName 2, snappyEncode (str "B")),
                               (committedName 1, snappyEncode (str "A"))] ∧
      fsFind [(committedName 2, snappyEncode (str "B")),
              (committedName 1, snappyEncode (str "A"))] (committedName n)
        = some (snappyEncode p) ∧
      (∀ name ∈ globC [(committedName 2, snappyEncode (str "B")),
                       (committedName 1, snappyEncode (str "A"))],
        ∀ m : Nat, name = committedName m → n ≤ m) ∧
      Next [(committedName 2, snappyEncode (str "B")),
            (committedName 1, snappyEncode (str "A"))]
        = (some p, committedName n, true,
           decide (1 < (globC [(committedName 2, snappyEncode (str "B")),
                               (committedName 1, snappyEncode (str "A"))]).length)) :=
  c3_fifo_lowest_index
    [(committedName 2, snappyEncode (str "B")), (committedName 1, snappyEncode (str "A"))]
    (by decide)
    (by
      intro name hm
      have hglob : globC [(committedName 2, snappyEncode (str "B")),
                          (committedName 1, snappyEncode (str "A"))]
          = [committedName 2, committedName 1] := by decide
      rw [hglob] at hm
      rcases List.mem_cons.mp hm with h | h
      · exact ⟨2, str "B", h, by rw [h]; decide⟩
      · have h1 : name = committedName 1 := by simpa using h
        exact ⟨1, str "A", h1, by rw [h1]; decide⟩)

end Agent
